import Mathlib

/-!
Verification of the ion shell syntax front end (src/peg.rs).

The source is a rust-peg grammar together with the data model (Job, Pipeline),
the glob expander and the command builder.  We embed the grammar shallowly:
a parser is a function from the remaining input (a list of characters) to an
optional pair of a value and the rest of the input.  Ordered choice, greedy
possessive repetition and separated lists with separator backtracking follow
the semantics of the rust-peg code generator.  Words are lists of characters
throughout (the Rust code converts borrowed slices to owned strings; that
conversion is the identity here).
-/

namespace Ion

/-- A PEG-style parser over character lists: it either fails or returns a
value together with the unconsumed remainder of the input. -/
abbrev P (α : Type) : Type := List Char → Option (α × List Char)

/-- Succeed without consuming input. -/
def ppure {α : Type} (a : α) : P α := fun s => some (a, s)

/-- Sequencing: run p, then f on its value over the remainder. -/
def pbind {α β : Type} (p : P α) (f : α → P β) : P β := fun s =>
  match p s with
  | some (a, s1) => f a s1
  | none => none

/-- Map over a parser result. -/
def pmap {α β : Type} (f : α → β) (p : P α) : P β := fun s =>
  match p s with
  | some (a, s1) => some (f a, s1)
  | none => none

/-- Ordered choice: try p, and only if it fails, q from the same position. -/
def por {α : Type} (p q : P α) : P α := fun s =>
  match p s with
  | some r => some r
  | none => q s

/-- Optional element: never fails, consumes nothing on inner failure. -/
def popt {α : Type} (p : P α) : P (Option α) := fun s =>
  match p s with
  | some (a, s1) => some (some a, s1)
  | none => some (none, s)

/-- Match one character satisfying the predicate. -/
def matchChar (pred : Char → Bool) : P Char := fun s =>
  match s with
  | c :: rest => if pred c then some (c, rest) else none
  | [] => none

/-- A character class repeated one or more times, greedily. -/
def takeWhile1 (pred : Char → Bool) : P (List Char) := fun s =>
  match s with
  | c :: rest =>
      if pred c then some (c :: rest.takeWhile pred, rest.dropWhile pred) else none
  | [] => none

/-- A character class repeated zero or more times, greedily. -/
def takeWhile0 (pred : Char → Bool) : P (List Char) := fun s =>
  some (s.takeWhile pred, s.dropWhile pred)

/-- Greedy repetition, fuelled.  Every starred rule of the grammar consumes at
least one character per successful iteration, so fuel equal to the input
length never runs out before the inner parser fails. -/
def manyAux {α : Type} (p : P α) : Nat → P (List α)
  | 0 => fun s => some ([], s)
  | Nat.succ n => fun s =>
      match p s with
      | none => some ([], s)
      | some (a, s1) =>
          match manyAux p n s1 with
          | some (as, s2) => some (a :: as, s2)
          | none => some ([], s)

/-- Zero-or-more repetition (the grammar operator written as a star). -/
def pmany {α : Type} (p : P α) : P (List α) := fun s => manyAux p s.length s

/-- One-or-more repetition (the grammar operator written as a plus). -/
def pmany1 {α : Type} (p : P α) : P (List α) := fun s =>
  match p s with
  | none => none
  | some (a, s1) =>
      match pmany p s1 with
      | some (as, s2) => some (a :: as, s2)
      | none => none

/-- Fuelled tail of a separated list: parses (sep p) repeatedly; a separator
whose following element fails is backtracked (rust-peg resets the cursor to
the end of the last successful element). -/
def sepByAux {α β : Type} (p : P α) (sep : P β) : Nat → P (List α)
  | 0 => fun s => some ([], s)
  | Nat.succ n => fun s =>
      match sep s with
      | none => some ([], s)
      | some (_, s1) =>
          match p s1 with
          | none => some ([], s)
          | some (a, s2) =>
              match sepByAux p sep n s2 with
              | some (as, s3) => some (a :: as, s3)
              | none => some ([a], s2)

/-- One-or-more p separated by sep (the grammar operator written ++). -/
def sepBy1 {α β : Type} (p : P α) (sep : P β) : P (List α) := fun s =>
  match p s with
  | none => none
  | some (a, s1) =>
      match sepByAux p sep s1.length s1 with
      | some (as, s2) => some (a :: as, s2)
      | none => some ([a], s1)

/-- Zero-or-more p separated by sep (the grammar operator written **). -/
def sepBy0 {α β : Type} (p : P α) (sep : P β) : P (List α) := fun s =>
  match p s with
  | none => some ([], s)
  | some (a, s1) =>
      match sepByAux p sep s1.length s1 with
      | some (as, s2) => some (a :: as, s2)
      | none => some ([a], s1)

/-! Grammar rules, one definition per rule of the peg block in src/peg.rs. -/

/-- Characters of the whitespace rule: space and tab. -/
def wsChar (c : Char) : Bool := c == ' ' || c == '\t'

/-- The characters a bare word may contain, the complement of the class
excluding space, tab, CR, LF, hash, semicolon, ampersand, pipe, lt, gt. -/
def bareChar (c : Char) : Bool :=
  !(c == ' ' || c == '\t' || c == '\r' || c == '\n' || c == '#' || c == ';' ||
    c == '&' || c == '|' || c == '<' || c == '>')

/-- whitespace rule: one or more spaces or tabs. -/
def whitespace : P Unit := pmap (fun _ => ()) (takeWhile1 wsChar)

/-- comment rule: a hash followed by any run of non-newline characters. -/
def comment : P Unit :=
  pbind (matchChar (fun c => c == '#')) fun _ =>
    pmap (fun _ => ()) (takeWhile0 (fun c => !(c == '\r' || c == '\n')))

/-- newline rule: one CR or LF character. -/
def newline : P Unit := pmap (fun _ => ()) (matchChar (fun c => c == '\r' || c == '\n'))

/-- unused rule: whitespace with an optional comment, or a bare comment. -/
def unused : P Unit :=
  por (pbind whitespace fun _ => pmap (fun _ => ()) (popt comment)) comment

/-- job_ending rule: a semicolon or a newline (the newline alternative is
written twice in the source; the duplicate is kept). -/
def job_ending : P Unit :=
  por (pmap (fun _ => ()) (matchChar (fun c => c == ';'))) (por newline newline)

/-- double_quoted_word rule: a double quote, one or more non-double-quote
characters, a double quote; the value is the run between the quotes. -/
def double_quoted_word : P (List Char) :=
  pbind (matchChar (fun c => c == '"')) fun _ =>
    pbind (takeWhile1 (fun c => !(c == '"'))) fun w =>
      pbind (matchChar (fun c => c == '"')) fun _ => ppure w

/-- single_quoted_word rule: same with single quotes. -/
def single_quoted_word : P (List Char) :=
  pbind (matchChar (fun c => c == '\'')) fun _ =>
    pbind (takeWhile1 (fun c => !(c == '\''))) fun w =>
      pbind (matchChar (fun c => c == '\'')) fun _ => ppure w

/-- word rule: double-quoted, else single-quoted, else a bare run. -/
def word : P (List Char) :=
  por double_quoted_word (por single_quoted_word (takeWhile1 bareChar))

/-- background_token rule: an ampersand, or whitespace then an ampersand. -/
def background_token : P Unit :=
  por (pmap (fun _ => ()) (matchChar (fun c => c == '&')))
      (pbind whitespace fun _ => pmap (fun _ => ()) (matchChar (fun c => c == '&')))

/-- pipeline_sep rule: a pipe character with optional whitespace around it. -/
def pipeline_sep : P Unit :=
  pbind (popt whitespace) fun _ =>
    pbind (matchChar (fun c => c == '|')) fun _ =>
      pmap (fun _ => ()) (popt whitespace)

/-- redirect_stdin rule: a lt sign, optional whitespace, then a word. -/
def redirect_stdin : P (List Char) :=
  pbind (matchChar (fun c => c == '<')) fun _ =>
    pbind (popt whitespace) fun _ => word

/-- redirect_stdout rule: a gt sign, optional whitespace, then a word. -/
def redirect_stdout : P (List Char) :=
  pbind (matchChar (fun c => c == '>')) fun _ =>
    pbind (popt whitespace) fun _ => word

/-- redirection rule, three ordered alternatives: stdin first with optional
stdout, stdout first with optional stdin, or nothing.  The pair is
(stdin file, stdout file). -/
def redirection : P (Option (List Char) × Option (List Char)) :=
  por
    (pbind redirect_stdin fun i =>
      pbind (popt whitespace) fun _ =>
        pmap (fun o => (some i, o)) (popt redirect_stdout))
    (por
      (pbind redirect_stdout fun o =>
        pbind (popt whitespace) fun _ =>
          pmap (fun i => (i, some o)) (popt redirect_stdin))
      (ppure (none, none)))

/-! The data model from src/peg.rs. -/

/-- One command invocation: program word, all words including the program
word, and the background flag. -/
structure Job where
  command : List Char
  args : List (List Char)
  background : Bool
deriving DecidableEq, Repr

/-- Job::new clones args[0] into the command field; indexing an empty vector
panics in Rust, modelled as failure. -/
def Job.new (args : List (List Char)) (background : Bool) : Option Job :=
  match args with
  | [] => none
  | a :: _ => some { command := a, args := args, background := background }

/-- A pipeline: its jobs and the two optional redirection files. -/
structure Pipeline where
  jobs : List Job
  stdout_file : Option (List Char)
  stdin_file : Option (List Char)
deriving DecidableEq, Repr

/-- Pipeline::new(jobs, stdin, stdout). -/
def Pipeline.new (jobs : List Job) (stdin : Option (List Char))
    (stdout : Option (List Char)) : Pipeline :=
  { jobs := jobs, stdin_file := stdin, stdout_file := stdout }

/-- job rule: one or more words separated by whitespace, then an optional
background token; the action calls Job::new on the word list. -/
def job : P Job := fun s =>
  match sepBy1 word whitespace s with
  | none => none
  | some (args, s1) =>
      match popt background_token s1 with
      | none => none
      | some (bg, s2) =>
          match Job.new args bg.isSome with
          | some j => some (j, s2)
          | none => none

/-- pipeline rule: optional whitespace, jobs separated by pipeline_sep,
optional whitespace, redirection, optional whitespace, optional comment. -/
def pipeline : P Pipeline :=
  pbind (popt whitespace) fun _ =>
    pbind (sepBy1 job pipeline_sep) fun res =>
      pbind (popt whitespace) fun _ =>
        pbind redirection fun redir =>
          pbind (popt whitespace) fun _ =>
            pmap (fun _ => Pipeline.new res redir.fst redir.snd) (popt comment)

/-- pipelines rule, first alternative header: a starred group of unused lines
each ended by a newline. -/
def leading_junk : P (List Unit) :=
  pmany (pbind (pmany unused) fun _ => newline)

/-- pipelines rule separator: one or more groups of one-or-more job endings
followed by any number of unused elements. -/
def pipelines_sep : P (List (List Unit)) :=
  pmany1 (pbind (pmany1 job_ending) fun _ => pmany unused)

/-- pipelines rule, first alternative trailer: a starred group of a newline
followed by any number of unused elements. -/
def trailing_junk : P (List (List Unit)) :=
  pmany (pbind newline fun _ => pmany unused)

/-- pipelines rule: the pipeline list, or a script of only blank and comment
material yielding the empty list. -/
def pipelinesRule : P (List Pipeline) :=
  por
    (pbind leading_junk fun _ =>
      pbind (sepBy1 pipeline pipelines_sep) fun ps =>
        pmap (fun _ => ps) trailing_junk)
    (pmap (fun _ => ([] : List Pipeline)) (sepBy0 (pmany unused) newline))

/-- The public grammar entry point: rust-peg succeeds only when the rule
matches and the whole input is consumed. -/
def pipelines (s : List Char) : Option (List Pipeline) :=
  match pipelinesRule s with
  | some (v, []) => some v
  | _ => none

/-- pub fn parse: pipelines(code).unwrap_or(vec![]). -/
def parse (s : List Char) : List Pipeline := (pipelines s).getD []

/-! Glob expansion and command building from src/peg.rs. -/

/-- The external glob service: given a pattern it fails (Err) or yields the
path strings of the successfully matched paths (the Ok results of the lazy
iterator; the Rust code drops per-path errors with filter_map). -/
abbrev GlobService : Type := List Char → Option (List (List Char))

/-- arg.contains of the three glob metacharacters. -/
def hasGlobChar (arg : List Char) : Bool :=
  arg.any (fun c => c == '?' || c == '*' || c == '[')

/-- The body of the inner for loop of Job::expand_globs: push one matched
path and record that a glob result was pushed. -/
def globPush (st : Bool × List (List Char)) (path : List Char) :
    Bool × List (List Char) :=
  (true, st.snd ++ [path])

/-- The body of the outer for loop of Job::expand_globs for one drained
argument: check it for a glob metacharacter, on a successful glob push each
matched path, and push the original argument when nothing was pushed. -/
def globArgStep (g : GlobService) (new_args : List (List Char))
    (arg : List Char) : List (List Char) :=
  let st :=
    if hasGlobChar arg then
      match g arg with
      | some expanded => expanded.foldl globPush (false, new_args)
      | none => (false, new_args)
    else (false, new_args)
  if st.fst then st.snd else st.snd ++ [arg]

/-- Job::expand_globs: drain every element of args (the first included) and
rebuild the argument vector with globArgStep. -/
def Job.expand_globs (g : GlobService) (j : Job) : Job :=
  { j with args := j.args.foldl (globArgStep g) [] }

/-- Pipeline::expand_globs: expand the globs of every job. -/
def Pipeline.expand_globs (g : GlobService) (p : Pipeline) : Pipeline :=
  { p with jobs := p.jobs.map (Job.expand_globs g) }

/-- The process descriptor built for the execution collaborator: a program
name and its arguments. -/
structure Command where
  program : List Char
  args : List (List Char)
deriving DecidableEq, Repr

/-- Command::new. -/
def Command.new (p : List Char) : Command := { program := p, args := [] }

/-- Command::arg appends one argument. -/
def Command.arg (c : Command) (a : List Char) : Command :=
  { c with args := c.args ++ [a] }

/-- Job::build_command: Command::new on the command field, then arg for each
index from 1 below args.len() that is present. -/
def Job.build_command (j : Job) : Command :=
  ((List.range j.args.length).drop 1).foldl
    (fun c i =>
      match j.args[i]? with
      | some a => c.arg a
      | none => c)
    (Command.new j.command)

/-- The specification-level per-argument glob behaviour, written from the
spec for comparison with Job.expand_globs: a non-glob argument is passed
through, a glob argument is replaced by its matches when there is at least
one, and kept literal on a service error or an empty match list. -/
def expandArg (g : GlobService) (arg : List Char) : List (List Char) :=
  if hasGlobChar arg then
    match g arg with
    | some expanded => if expanded.isEmpty then [arg] else expanded
    | none => [arg]
  else [arg]

/-! Vocabulary used by the theorem statements: boundary predicates on the
remaining input, and renderings of word sequences back into script text. -/

/-- True when the input is empty or its first character falls outside the
character class, i.e. exactly when a greedy run of that class stops here. -/
def headFails (pred : Char → Bool) (s : List Char) : Bool :=
  match s with
  | [] => true
  | c :: _ => !(pred c)

/-- A well-formed bare word: non-empty, built only from bare-word characters,
and not starting with a quote character (so the quoted alternatives of the
word rule cannot fire on it). -/
def goodWordB (w : List Char) : Bool :=
  match w with
  | [] => false
  | c :: _ => w.all bareChar && !(c == '"') && !(c == '\'')

/-- True when the word rule fails at this input: empty, or a first character
that is neither a bare-word character nor a quote. -/
def wordStop (s : List Char) : Bool :=
  match s with
  | [] => true
  | c :: _ => !(bareChar c) && !(c == '"') && !(c == '\'')

/-- True when the word list of a job stops before this remainder: either no
whitespace follows, or the whitespace is not followed by another word (the
separator is then backtracked). -/
def sepStopB (rest : List Char) : Bool :=
  match whitespace rest with
  | none => true
  | some (_, s1) => (word s1).isNone

/-- One rendered shell word: the text as it appears in the script and the
value the word rule yields for it. -/
structure Tok where
  text : List Char
  value : List Char
deriving DecidableEq, Repr

/-- A well-formed token: a bare word standing for itself, or a non-empty
double- or single-quoted word whose value omits the delimiting quotes. -/
def GoodTok (t : Tok) : Prop :=
  (t.text = t.value ∧ goodWordB t.value = true) ∨
  (t.text = '"' :: (t.value ++ ['"']) ∧ t.value ≠ [] ∧ ∀ c ∈ t.value, ¬(c = '"')) ∨
  (t.text = '\'' :: (t.value ++ ['\'']) ∧ t.value ≠ [] ∧ ∀ c ∈ t.value, ¬(c = '\''))

instance (t : Tok) : Decidable (GoodTok t) := by
  unfold GoodTok
  infer_instance

/-- The rendering of the words after the first one: each preceded by a single
separating space. -/
def joinTailT : List Tok → List Char
  | [] => []
  | t :: ts => ' ' :: (t.text ++ joinTailT ts)

/-- The rendering of a whole word sequence, single spaces between words. -/
def joinWordsT : List Tok → List Char
  | [] => []
  | t :: ts => t.text ++ joinTailT ts

/-- The Job the parser builds for a rendered word sequence: the command is
the first word value, the args are all word values in order. -/
def tokJob (t : Tok) (ts : List Tok) (b : Bool) : Job :=
  { command := t.value, args := (t :: ts).map Tok.value, background := b }

/-- A concrete glob service used by the counterexamples: the pattern a-star
matches the two paths ab and ac, every other pattern is an error. -/
def gCex : GlobService := fun p =>
  if p = ['a', '*'] then some [['a', 'b'], ['a', 'c']] else none

/-- The job the parser produces for the one-word script a-star. -/
def jStar : Job :=
  { command := ['a', '*'], args := [['a', '*']], background := false }

/-- A job whose command word is a glob pattern and that has one more literal
argument. -/
def jStarX : Job :=
  { command := ['a', '*'], args := [['a', '*'], ['x']], background := false }

/-- A job with a literal command word and one glob-pattern argument. -/
def jX : Job :=
  { command := ['x'], args := [['x'], ['a', '*']], background := false }

/-- The job the parser produces for the one-letter script c. -/
def jC : Job :=
  { command := ['c'], args := [['c']], background := false }

/-! Basic lemmas on character classes and greedy runs. -/

theorem bareChar_spec {c : Char} (h : bareChar c = true) :
    wsChar c = false ∧ (c == '#') = false ∧ (c == '\r') = false ∧
    (c == '\n') = false ∧ (c == ';') = false ∧ (c == '&') = false ∧
    (c == '|') = false ∧ (c == '<') = false ∧ (c == '>') = false := by
  simp only [bareChar, Bool.not_eq_true', Bool.or_eq_false_iff] at h
  simp only [wsChar, Bool.or_eq_false_iff]
  tauto

theorem matchChar_cons_pos {pred : Char → Bool} {c : Char} {s : List Char}
    (h : pred c = true) : matchChar pred (c :: s) = some (c, s) := by
  simp [matchChar, h]

theorem matchChar_cons_neg {pred : Char → Bool} {c : Char} {s : List Char}
    (h : pred c = false) : matchChar pred (c :: s) = none := by
  simp [matchChar, h]

theorem takeWhile_all_append (pred : Char → Bool) (rest : List Char)
    (hrest : headFails pred rest = true) :
    ∀ w : List Char, w.all pred = true →
      (w ++ rest).takeWhile pred = w ∧ (w ++ rest).dropWhile pred = rest := by
  intro w
  induction w with
  | nil =>
    intro _
    cases rest with
    | nil => simp
    | cons c r =>
      simp only [headFails, Bool.not_eq_true'] at hrest
      simp [List.takeWhile_cons, List.dropWhile_cons, hrest]
  | cons a w ih =>
    intro hall
    simp only [List.all_cons, Bool.and_eq_true] at hall
    have h2 := ih hall.2
    simp [List.takeWhile_cons, List.dropWhile_cons, hall.1, h2.1, h2.2]

theorem takeWhile1_all_append (pred : Char → Bool) (w rest : List Char)
    (hw : w ≠ []) (hall : w.all pred = true)
    (hrest : headFails pred rest = true) :
    takeWhile1 pred (w ++ rest) = some (w, rest) := by
  cases w with
  | nil => exact absurd rfl hw
  | cons a w =>
    simp only [List.all_cons, Bool.and_eq_true] at hall
    have h2 := takeWhile_all_append pred rest hrest w hall.2
    simp [takeWhile1, hall.1, h2.1, h2.2]

theorem takeWhile1_none (pred : Char → Bool) (s : List Char)
    (h : headFails pred s = true) : takeWhile1 pred s = none := by
  cases s with
  | nil => rfl
  | cons c r =>
    simp only [headFails, Bool.not_eq_true'] at h
    simp [takeWhile1, h]

theorem takeWhile1_some_ne {pred : Char → Bool} {s v r : List Char}
    (h : takeWhile1 pred s = some (v, r)) : v ≠ [] := by
  cases s with
  | nil => exact absurd h (by simp [takeWhile1])
  | cons c s =>
    by_cases hp : pred c = true
    · simp only [takeWhile1, hp, if_pos] at h
      obtain ⟨h1, _⟩ := Prod.mk.injEq .. ▸ Option.some.inj h
      exact h1 ▸ List.cons_ne_nil _ _
    · simp [takeWhile1, hp] at h

/-! Lemmas on the word rule. -/

theorem double_quoted_word_none {s : List Char}
    (h : match s with | [] => True | c :: _ => (c == '"') = false) :
    double_quoted_word s = none := by
  cases s with
  | nil => rfl
  | cons c r => simp_all [double_quoted_word, pbind, matchChar]

theorem single_quoted_word_none {s : List Char}
    (h : match s with | [] => True | c :: _ => (c == '\'') = false) :
    single_quoted_word s = none := by
  cases s with
  | nil => rfl
  | cons c r => simp_all [single_quoted_word, pbind, matchChar]

theorem word_bare (w rest : List Char) (hw : goodWordB w = true)
    (hrest : headFails bareChar rest = true) :
    word (w ++ rest) = some (w, rest) := by
  cases w with
  | nil => simp [goodWordB] at hw
  | cons c w =>
    simp only [goodWordB, Bool.and_eq_true, Bool.not_eq_true'] at hw
    obtain ⟨⟨hall, hdq⟩, hsq⟩ := hw
    have hbare := takeWhile1_all_append bareChar (c :: w) rest
      (List.cons_ne_nil _ _) hall hrest
    have hd : double_quoted_word ((c :: w) ++ rest) = none :=
      double_quoted_word_none (by simpa using hdq)
    have hs : single_quoted_word ((c :: w) ++ rest) = none :=
      single_quoted_word_none (by simpa using hsq)
    simp only [List.cons_append] at hd hs hbare
    simp [word, por, hd, hs, hbare]

theorem word_none (s : List Char) (h : wordStop s = true) : word s = none := by
  cases s with
  | nil => rfl
  | cons c r =>
    simp only [wordStop, Bool.and_eq_true, Bool.not_eq_true'] at h
    obtain ⟨⟨hbare, hdq⟩, hsq⟩ := h
    have hd : double_quoted_word (c :: r) = none :=
      double_quoted_word_none (by simpa using hdq)
    have hs : single_quoted_word (c :: r) = none :=
      single_quoted_word_none (by simpa using hsq)
    simp [word, por, hd, hs, takeWhile1, hbare]

theorem double_quoted_word_some {s v r : List Char}
    (h : double_quoted_word s = some (v, r)) : v ≠ [] := by
  cases s with
  | nil => exact absurd h (by simp [double_quoted_word, pbind, matchChar])
  | cons c s =>
    by_cases hc : (c == '"') = true
    · cases h2 : takeWhile1 (fun c => !(c == '"')) s with
      | none =>
        simp [double_quoted_word, pbind, @matchChar_cons_pos (fun c => c == '"') c s hc, h2] at h
      | some p2 =>
        obtain ⟨v2, r2⟩ := p2
        cases h3 : matchChar (fun c => c == '"') r2 with
        | none =>
          simp [double_quoted_word, pbind, @matchChar_cons_pos (fun c => c == '"') c s hc, h2, h3] at h
        | some p3 =>
          obtain ⟨c3, r3⟩ := p3
          simp only [double_quoted_word, pbind, ppure, @matchChar_cons_pos (fun c => c == '"') c s hc,
            h2, h3, Option.some.injEq, Prod.mk.injEq] at h
          exact h.1 ▸ takeWhile1_some_ne h2
    · exact absurd h (by
        simp [double_quoted_word, pbind,
          @matchChar_cons_neg (fun c => c == '"') c s (Bool.not_eq_true _ ▸ hc)])

theorem single_quoted_word_some {s v r : List Char}
    (h : single_quoted_word s = some (v, r)) : v ≠ [] := by
  cases s with
  | nil => exact absurd h (by simp [single_quoted_word, pbind, matchChar])
  | cons c s =>
    by_cases hc : (c == '\'') = true
    · cases h2 : takeWhile1 (fun c => !(c == '\'')) s with
      | none =>
        simp [single_quoted_word, pbind, @matchChar_cons_pos (fun c => c == '\'') c s hc, h2] at h
      | some p2 =>
        obtain ⟨v2, r2⟩ := p2
        cases h3 : matchChar (fun c => c == '\'') r2 with
        | none =>
          simp [single_quoted_word, pbind, @matchChar_cons_pos (fun c => c == '\'') c s hc, h2, h3] at h
        | some p3 =>
          obtain ⟨c3, r3⟩ := p3
          simp only [single_quoted_word, pbind, ppure, @matchChar_cons_pos (fun c => c == '\'') c s hc,
            h2, h3, Option.some.injEq, Prod.mk.injEq] at h
          exact h.1 ▸ takeWhile1_some_ne h2
    · exact absurd h (by
        simp [single_quoted_word, pbind,
          @matchChar_cons_neg (fun c => c == '\'') c s (Bool.not_eq_true _ ▸ hc)])

theorem word_some_ne {s v r : List Char} (h : word s = some (v, r)) :
    v ≠ [] := by
  simp only [word, por] at h
  cases hd : double_quoted_word s with
  | some p =>
    obtain ⟨v1, r1⟩ := p
    rw [hd] at h
    obtain ⟨rfl, rfl⟩ : v1 = v ∧ r1 = r := by
      simpa using h
    exact double_quoted_word_some hd
  | none =>
    rw [hd] at h
    cases hs : single_quoted_word s with
    | some p =>
      obtain ⟨v1, r1⟩ := p
      rw [hs] at h
      obtain ⟨rfl, rfl⟩ : v1 = v ∧ r1 = r := by
        simpa using h
      exact single_quoted_word_some hs
    | none =>
      rw [hs] at h
      exact takeWhile1_some_ne h

/-! Lemmas on whitespace, optional elements and rendered tokens. -/

theorem whitespace_cons_space {r : List Char} (hr : headFails wsChar r = true) :
    whitespace (' ' :: r) = some ((), r) := by
  have h := takeWhile1_all_append wsChar [' '] r (by decide) (by decide) hr
  simp only [List.singleton_append] at h
  simp [whitespace, pmap, h]

theorem whitespace_none {s : List Char} (h : headFails wsChar s = true) :
    whitespace s = none := by
  simp [whitespace, pmap, takeWhile1_none wsChar s h]

theorem popt_of_none {α : Type} {p : P α} {s : List Char} (h : p s = none) :
    popt p s = some (none, s) := by
  simp [popt, h]

theorem popt_of_some {α : Type} {p : P α} {s s1 : List Char} {a : α}
    (h : p s = some (a, s1)) : popt p s = some (some a, s1) := by
  simp [popt, h]

theorem matchChar_dq (s : List Char) :
    matchChar (fun c => c == '"') ('"' :: s) = some ('"', s) :=
  matchChar_cons_pos (by decide)

theorem matchChar_sq (s : List Char) :
    matchChar (fun c => c == '\'') ('\'' :: s) = some ('\'', s) :=
  matchChar_cons_pos (by decide)

theorem tok_text_head (t : Tok) (ht : GoodTok t) :
    ∃ c r, t.text = c :: r ∧ wsChar c = false ∧ (c == '#') = false ∧
      (c == '\r') = false ∧ (c == '\n') = false := by
  rcases ht with ⟨htv, hgood⟩ | ⟨htext, _, _⟩ | ⟨htext, _, _⟩
  · cases hv : t.value with
    | nil => rw [hv] at hgood; simp [goodWordB] at hgood
    | cons c r =>
      rw [hv] at hgood htv
      simp only [goodWordB, List.all_cons, Bool.and_eq_true] at hgood
      have hb := bareChar_spec hgood.1.1.1
      exact ⟨c, r, htv, hb.1, hb.2.1, hb.2.2.1, hb.2.2.2.1⟩
  · exact ⟨'"', _, htext, by decide, by decide, by decide, by decide⟩
  · exact ⟨'\'', _, htext, by decide, by decide, by decide, by decide⟩

theorem word_tok (t : Tok) (rest : List Char) (ht : GoodTok t)
    (hrest : headFails bareChar rest = true) :
    word (t.text ++ rest) = some (t.value, rest) := by
  rcases ht with ⟨htv, hgood⟩ | ⟨htext, hne, hnq⟩ | ⟨htext, hne, hnq⟩
  · rw [htv]
    exact word_bare _ _ hgood hrest
  · rw [htext]
    have hshape : ('"' :: (t.value ++ ['"'])) ++ rest =
        '"' :: (t.value ++ ('"' :: rest)) := by
      simp
    rw [hshape]
    have hall : t.value.all (fun c => !(c == '"')) = true := by
      rw [List.all_eq_true]
      intro c hc
      simpa using hnq c hc
    have htw : takeWhile1 (fun c => !(c == '"')) (t.value ++ ('"' :: rest)) =
        some (t.value, '"' :: rest) :=
      takeWhile1_all_append _ _ _ hne hall (by simp [headFails])
    simp [word, por, double_quoted_word, pbind, ppure, matchChar_dq, htw]
  · rw [htext]
    have hshape : ('\'' :: (t.value ++ ['\''])) ++ rest =
        '\'' :: (t.value ++ ('\'' :: rest)) := by
      simp
    rw [hshape]
    have hall : t.value.all (fun c => !(c == '\'')) = true := by
      rw [List.all_eq_true]
      intro c hc
      simpa using hnq c hc
    have htw : takeWhile1 (fun c => !(c == '\'')) (t.value ++ ('\'' :: rest)) =
        some (t.value, '\'' :: rest) :=
      takeWhile1_all_append _ _ _ hne hall (by simp [headFails])
    have hd : double_quoted_word ('\'' :: (t.value ++ ('\'' :: rest))) = none :=
      double_quoted_word_none (by exact rfl)
    simp [word, por, hd, single_quoted_word, pbind, ppure, matchChar_sq, htw]

theorem joinTailT_headFails (ts : List Tok) (rest : List Char)
    (hrest : headFails bareChar rest = true) :
    headFails bareChar (joinTailT ts ++ rest) = true := by
  cases ts with
  | nil => simpa [joinTailT]
  | cons t2 ts2 =>
    simp only [joinTailT, List.cons_append, headFails]
    decide

/-! The word list of a job: sepBy1 on rendered tokens. -/

theorem sepByAux_words_nil (n : Nat) (rest : List Char)
    (hstop : sepStopB rest = true) :
    sepByAux word whitespace n rest = some ([], rest) := by
  cases n with
  | zero => rfl
  | succ m =>
    simp only [sepByAux]
    cases hws : whitespace rest with
    | none => rfl
    | some p =>
      obtain ⟨u, s1⟩ := p
      simp only [sepStopB, hws, Option.isNone_iff_eq_none] at hstop
      simp [hstop]

theorem sepByAux_words_cons :
    ∀ (ts : List Tok) (n : Nat) (rest : List Char),
      (∀ x ∈ ts, GoodTok x) → sepStopB rest = true →
      headFails bareChar rest = true →
      (joinTailT ts ++ rest).length ≤ n →
      sepByAux word whitespace n (joinTailT ts ++ rest) =
        some (ts.map Tok.value, rest) := by
  intro ts
  induction ts with
  | nil =>
    intro n rest _ hstop _ _
    simpa [joinTailT] using sepByAux_words_nil n rest hstop
  | cons t ts ih =>
    intro n rest hgood hstop hrest hlen
    obtain ⟨c, rr, hc, hcws, _, _, _⟩ := tok_text_head t (hgood t (by simp))
    have hshape : joinTailT (t :: ts) ++ rest =
        ' ' :: (t.text ++ (joinTailT ts ++ rest)) := by
      simp [joinTailT, List.append_assoc]
    cases n with
    | zero =>
      rw [hshape] at hlen
      simp at hlen
    | succ m =>
      rw [hshape]
      have hX : headFails wsChar (t.text ++ (joinTailT ts ++ rest)) = true := by
        rw [hc]
        simp [headFails, hcws]
      have htail := joinTailT_headFails ts rest hrest
      have hw := word_tok t (joinTailT ts ++ rest) (hgood t (by simp)) htail
      have hlen2 : (joinTailT ts ++ rest).length ≤ m := by
        rw [hshape] at hlen
        simp only [List.length_cons, List.length_append] at hlen ⊢
        omega
      have hrec := ih m rest (fun x hx => hgood x (List.mem_cons_of_mem _ hx))
        hstop hrest hlen2
      simp only [sepByAux, whitespace_cons_space hX, hw, hrec, List.map_cons]

theorem sepBy1_toks (t : Tok) (ts : List Tok) (rest : List Char)
    (hgood : GoodTok t) (hgoods : ∀ x ∈ ts, GoodTok x)
    (hstop : sepStopB rest = true) (hrest : headFails bareChar rest = true) :
    sepBy1 word whitespace (joinWordsT (t :: ts) ++ rest) =
      some ((t :: ts).map Tok.value, rest) := by
  have hshape : joinWordsT (t :: ts) ++ rest = t.text ++ (joinTailT ts ++ rest) := by
    simp [joinWordsT, List.append_assoc]
  have htail := joinTailT_headFails ts rest hrest
  have hw := word_tok t (joinTailT ts ++ rest) hgood htail
  have hrec := sepByAux_words_cons ts (joinTailT ts ++ rest).length rest hgoods
    hstop hrest (le_refl _)
  simp only [sepBy1, hshape, hw, hrec, List.map_cons]

/-! Background token behaviour on the remainders that occur after a job. -/

theorem popt_background_nil : popt background_token [] = some (none, []) := rfl

theorem popt_background_amp (r : List Char) :
    popt background_token ('&' :: r) = some (some (), r) := rfl

theorem popt_background_ws_amp (r : List Char) :
    popt background_token (' ' :: '&' :: r) = some (some (), r) := rfl

theorem popt_background_ws_lt (x : List Char) :
    popt background_token (' ' :: '<' :: x) = some (none, ' ' :: '<' :: x) := rfl

theorem popt_background_ws_gt (x : List Char) :
    popt background_token (' ' :: '>' :: x) = some (none, ' ' :: '>' :: x) := rfl

/-- The job rule on a rendered word sequence followed by a remainder at which
the word list stops; the background flag records whether the background token
matched at the remainder. -/
theorem job_toks (t : Tok) (ts : List Tok) (rest rest2 : List Char)
    (bgo : Option Unit)
    (hgood : GoodTok t) (hgoods : ∀ x ∈ ts, GoodTok x)
    (hstop : sepStopB rest = true) (hrest : headFails bareChar rest = true)
    (hbg : popt background_token rest = some (bgo, rest2)) :
    job (joinWordsT (t :: ts) ++ rest) =
      some ({ command := t.value, args := (t :: ts).map Tok.value,
              background := bgo.isSome }, rest2) := by
  simp only [job, sepBy1_toks t ts rest hgood hgoods hstop hrest, hbg,
    List.map_cons, Job.new]

/-! Pipeline-level lemmas. -/

theorem matchChar_lt (s : List Char) :
    matchChar (fun c => c == '<') ('<' :: s) = some ('<', s) :=
  matchChar_cons_pos (by decide)

theorem matchChar_gt (s : List Char) :
    matchChar (fun c => c == '>') ('>' :: s) = some ('>', s) :=
  matchChar_cons_pos (by decide)

/-- A pipeline consisting of one job that consumed the whole input: no
separator, no redirection, no comment. -/
theorem pipeline_done (s : List Char) (j : Job)
    (hjob : job s = some (j, []))
    (hws : headFails wsChar s = true) :
    pipeline s = some (Pipeline.new [j] none none, []) := by
  have h1 : popt whitespace s = some (none, s) :=
    popt_of_none (whitespace_none hws)
  simp only [pipeline, pbind, pmap, h1, sepBy1, hjob, List.length_nil, sepByAux]
  rfl

/-- A pipeline consisting of one job followed by one space and a redirection
clause that consumes the rest of the input. -/
theorem pipeline_redir (s : List Char) (j : Job) (r : List Char)
    (ro : Option (List Char) × Option (List Char))
    (hjob : job s = some (j, ' ' :: r))
    (hws : headFails wsChar s = true)
    (hwr : headFails wsChar r = true)
    (hpipe : matchChar (fun c => c == '|') r = none)
    (hred : redirection r = some (ro, [])) :
    pipeline s = some (Pipeline.new [j] ro.fst ro.snd, []) := by
  have h1 : popt whitespace s = some (none, s) :=
    popt_of_none (whitespace_none hws)
  have hwsr : whitespace (' ' :: r) = some ((), r) := whitespace_cons_space hwr
  have hsep : pipeline_sep (' ' :: r) = none := by
    simp only [pipeline_sep, pbind, pmap, popt_of_some hwsr, hpipe]
  have haux : sepByAux job pipeline_sep (' ' :: r).length (' ' :: r) =
      some ([], ' ' :: r) := by
    simp only [List.length_cons, sepByAux, hsep]
  have h2 : popt whitespace (' ' :: r) = some (some (), r) := popt_of_some hwsr
  simp only [pipeline, pbind, pmap, h1, sepBy1, hjob, haux, h2, hred]
  rfl

/-! Lemmas on skipping rules and the top-level pipelines rule. -/

theorem manyAux_fail {α : Type} (p : P α) (n : Nat) (s : List Char)
    (h : p s = none) : manyAux p n s = some ([], s) := by
  cases n <;> simp [manyAux, h]

theorem pmany_fail {α : Type} (p : P α) (s : List Char) (h : p s = none) :
    pmany p s = some ([], s) :=
  manyAux_fail p s.length s h

theorem unused_none_head {c : Char} {r : List Char}
    (hws : wsChar c = false) (hh : (c == '#') = false) :
    unused (c :: r) = none := by
  have h1 : whitespace (c :: r) = none :=
    whitespace_none (by simp [headFails, hws])
  have h2 : comment (c :: r) = none := by
    simp [comment, pbind, @matchChar_cons_neg (fun c => c == '#') c r hh]
  simp [unused, por, pbind, h1, h2]

theorem newline_none_head {c : Char} {r : List Char}
    (h1 : (c == '\r') = false) (h2 : (c == '\n') = false) :
    newline (c :: r) = none := by
  simp [newline, pmap,
    @matchChar_cons_neg (fun c => c == '\r' || c == '\n') c r (by simp [h1, h2])]

/-- A whole-input parse built from one pipeline that consumed everything:
no leading junk, a single pipeline group, no trailing junk. -/
theorem parse_single (s : List Char) (pl : Pipeline)
    (hp : pipeline s = some (pl, []))
    (hu : unused s = none) (hn : newline s = none) :
    parse s = [pl] := by
  have hinner : (pbind (pmany unused) fun _ => newline) s = none := by
    simp only [pbind, pmany_fail unused s hu, hn]
  have hlead : manyAux (pbind (pmany unused) fun _ => newline) s.length s =
      some ([], s) := pmany_fail _ s hinner
  have hrule : pipelinesRule s = some ([pl], []) := by
    simp only [pipelinesRule, por, pbind, pmap, leading_junk, pmany, hlead,
      sepBy1, hp, List.length_nil, sepByAux, trailing_junk, manyAux]
  simp [parse, pipelines, hrule]

/-! Redirection clauses in both orders. -/

theorem redirection_in_first (tA tB : Tok) (hA : GoodTok tA) (hB : GoodTok tB) :
    redirection ('<' :: ' ' :: (tA.text ++ (' ' :: '>' :: ' ' :: tB.text))) =
      some ((some tA.value, some tB.value), []) := by
  obtain ⟨cA, rA, hcA, hAws, _, _, _⟩ := tok_text_head tA hA
  obtain ⟨cB, rB, hcB, hBws, _, _, _⟩ := tok_text_head tB hB
  have hwsA : headFails wsChar (tA.text ++ (' ' :: '>' :: ' ' :: tB.text)) = true := by
    rw [hcA]
    simp [headFails, hAws]
  have h1 := whitespace_cons_space hwsA
  have hwordA : word (tA.text ++ (' ' :: '>' :: ' ' :: tB.text)) =
      some (tA.value, ' ' :: '>' :: ' ' :: tB.text) :=
    word_tok tA _ hA rfl
  have hstdin : redirect_stdin
      ('<' :: ' ' :: (tA.text ++ (' ' :: '>' :: ' ' :: tB.text))) =
      some (tA.value, ' ' :: '>' :: ' ' :: tB.text) := by
    simp only [redirect_stdin, pbind, matchChar_lt, popt_of_some h1, hwordA]
  have hws2 : whitespace (' ' :: '>' :: ' ' :: tB.text) =
      some ((), '>' :: ' ' :: tB.text) := whitespace_cons_space rfl
  have hwsB : headFails wsChar tB.text = true := by
    rw [hcB]
    simp [headFails, hBws]
  have hws3 : whitespace (' ' :: tB.text) = some ((), tB.text) :=
    whitespace_cons_space hwsB
  have hwordB : word (tB.text ++ []) = some (tB.value, []) := word_tok tB [] hB rfl
  rw [List.append_nil] at hwordB
  have hstdout : redirect_stdout ('>' :: ' ' :: tB.text) = some (tB.value, []) := by
    simp only [redirect_stdout, pbind, matchChar_gt, popt_of_some hws3, hwordB]
  simp only [redirection, por, pbind, pmap, hstdin, popt_of_some hws2,
    popt_of_some hstdout]

theorem redirection_out_first (tA tB : Tok) (hA : GoodTok tA) (hB : GoodTok tB) :
    redirection ('>' :: ' ' :: (tB.text ++ (' ' :: '<' :: ' ' :: tA.text))) =
      some ((some tA.value, some tB.value), []) := by
  obtain ⟨cA, rA, hcA, hAws, _, _, _⟩ := tok_text_head tA hA
  obtain ⟨cB, rB, hcB, hBws, _, _, _⟩ := tok_text_head tB hB
  have hfail : redirect_stdin
      ('>' :: ' ' :: (tB.text ++ (' ' :: '<' :: ' ' :: tA.text))) = none := by
    simp [redirect_stdin, pbind,
      @matchChar_cons_neg (fun c => c == '<') '>'
        (' ' :: (tB.text ++ (' ' :: '<' :: ' ' :: tA.text))) (by decide)]
  have hwsB : headFails wsChar (tB.text ++ (' ' :: '<' :: ' ' :: tA.text)) = true := by
    rw [hcB]
    simp [headFails, hBws]
  have h1 := whitespace_cons_space hwsB
  have hwordB : word (tB.text ++ (' ' :: '<' :: ' ' :: tA.text)) =
      some (tB.value, ' ' :: '<' :: ' ' :: tA.text) :=
    word_tok tB _ hB rfl
  have hstdout : redirect_stdout
      ('>' :: ' ' :: (tB.text ++ (' ' :: '<' :: ' ' :: tA.text))) =
      some (tB.value, ' ' :: '<' :: ' ' :: tA.text) := by
    simp only [redirect_stdout, pbind, matchChar_gt, popt_of_some h1, hwordB]
  have hws2 : whitespace (' ' :: '<' :: ' ' :: tA.text) =
      some ((), '<' :: ' ' :: tA.text) := whitespace_cons_space rfl
  have hwsA : headFails wsChar tA.text = true := by
    rw [hcA]
    simp [headFails, hAws]
  have hws3 : whitespace (' ' :: tA.text) = some ((), tA.text) :=
    whitespace_cons_space hwsA
  have hwordA : word (tA.text ++ []) = some (tA.value, []) := word_tok tA [] hA rfl
  rw [List.append_nil] at hwordA
  have hstdin : redirect_stdin ('<' :: ' ' :: tA.text) = some (tA.value, []) := by
    simp only [redirect_stdin, pbind, matchChar_lt, popt_of_some hws3, hwordA]
  simp only [redirection, por, pbind, pmap, hfail, hstdout, popt_of_some hws2,
    popt_of_some hstdin]

/-! Lemmas on the glob expander. -/

theorem globPush_foldl (ps : List (List Char)) :
    ∀ (b : Bool) (acc : List (List Char)),
      ps.foldl globPush (b, acc) = (b || !ps.isEmpty, acc ++ ps) := by
  induction ps with
  | nil =>
    intro b acc
    simp
  | cons p ps ih =>
    intro b acc
    simp [List.foldl_cons, globPush, ih true (acc ++ [p])]

theorem globArgStep_eq (g : GlobService) (acc : List (List Char))
    (arg : List Char) : globArgStep g acc arg = acc ++ expandArg g arg := by
  unfold globArgStep expandArg
  by_cases hg : hasGlobChar arg = true
  · simp only [hg, if_pos]
    cases hga : g arg with
    | none => simp
    | some exp =>
      simp only [globPush_foldl exp false acc, Bool.false_or]
      by_cases he : exp.isEmpty = true
      · simp [he, List.isEmpty_iff.mp he]
      · simp [he]
  · simp [hg]

theorem foldl_globArgStep (g : GlobService) :
    ∀ (args acc : List (List Char)),
      args.foldl (globArgStep g) acc = acc ++ args.flatMap (expandArg g) := by
  intro args
  induction args with
  | nil =>
    intro acc
    simp
  | cons a args ih =>
    intro acc
    simp [List.foldl_cons, globArgStep_eq, ih, List.flatMap_cons,
      List.append_assoc]

/-- The per-argument characterisation of Job::expand_globs: the new argument
vector is the concatenation of the per-argument expansions. -/
theorem expand_globs_args (g : GlobService) (j : Job) :
    (Job.expand_globs g j).args = j.args.flatMap (expandArg g) := by
  simp [Job.expand_globs, foldl_globArgStep]

theorem expand_globs_command (g : GlobService) (j : Job) :
    (Job.expand_globs g j).command = j.command := rfl

theorem expand_globs_background (g : GlobService) (j : Job) :
    (Job.expand_globs g j).background = j.background := rfl

theorem expandArg_length (g : GlobService) (arg : List Char) :
    1 ≤ (expandArg g arg).length := by
  unfold expandArg
  by_cases hg : hasGlobChar arg = true
  · simp only [hg, if_pos]
    cases hga : g arg with
    | none => simp
    | some exp =>
      by_cases he : exp.isEmpty = true
      · simp [he]
      · have : exp ≠ [] := by
          simpa [List.isEmpty_iff] using he
        simp [he, Nat.one_le_iff_ne_zero, List.length_eq_zero, this]
  · simp [hg]

theorem expand_globs_ne_nil (g : GlobService) (j : Job) (h : j.args ≠ []) :
    (Job.expand_globs g j).args ≠ [] := by
  rw [expand_globs_args]
  cases ja : j.args with
  | nil => exact absurd ja h
  | cons a as =>
    have h1 := expandArg_length g a
    have h2 : 0 < ((a :: as).flatMap (expandArg g)).length := by
      simp only [List.flatMap_cons, List.length_append]
      omega
    exact List.ne_nil_of_length_pos h2

/-! Lemmas on Job::new and jobs produced by the job rule. -/

theorem Job_new_head {args : List (List Char)} {b : Bool} {j : Job}
    (h : Job.new args b = some j) :
    j.args.head? = some j.command ∧ j.args ≠ [] := by
  cases args with
  | nil => simp [Job.new] at h
  | cons a as =>
    simp only [Job.new, Option.some.injEq] at h
    rw [← h]
    simp

theorem job_head {s : List Char} {j : Job} {r : List Char}
    (h : job s = some (j, r)) :
    j.args.head? = some j.command ∧ j.args ≠ [] := by
  simp only [job] at h
  cases h1 : sepBy1 word whitespace s with
  | none =>
    simp only [h1] at h
    exact Option.noConfusion h
  | some p =>
    obtain ⟨args, s1⟩ := p
    simp only [h1] at h
    cases h2 : popt background_token s1 with
    | none =>
      simp only [h2] at h
      exact Option.noConfusion h
    | some p2 =>
      obtain ⟨bg, s2⟩ := p2
      simp only [h2] at h
      cases h3 : Job.new args bg.isSome with
      | none =>
        simp only [h3] at h
        exact Option.noConfusion h
      | some j2 =>
        simp only [h3, Option.some.injEq, Prod.mk.injEq] at h
        obtain ⟨rfl, rfl⟩ := h
        exact Job_new_head h3

/-! Lemmas on the command builder. -/

theorem foldl_command_arg (l : List (List Char)) :
    ∀ (idx : List Nat) (c : Command),
      idx.foldl (fun c i =>
          match l[i]? with
          | some a => c.arg a
          | none => c) c =
        { program := c.program,
          args := c.args ++ idx.filterMap (fun i => l[i]?) } := by
  intro idx
  induction idx with
  | nil =>
    intro c
    simp
  | cons i idx ih =>
    intro c
    cases h : l[i]? with
    | none => simp [List.foldl_cons, h, ih, List.filterMap_cons]
    | some a =>
      rw [List.foldl_cons]
      simp only [h]
      rw [ih (c.arg a)]
      simp [Command.arg, List.filterMap_cons, h, List.append_assoc]

theorem filterMap_get_range (l : List (List Char)) :
    (List.range l.length).filterMap (fun i => l[i]?) = l := by
  induction l with
  | nil => rfl
  | cons a t ih =>
    rw [List.length_cons, List.range_succ_eq_map]
    simp only [List.filterMap_cons, List.getElem?_cons_zero, List.filterMap_map]
    have hcomp : ((fun i => (a :: t)[i]?) ∘ Nat.succ) = fun i => t[i]? := by
      funext i
      simp [Function.comp, Nat.succ_eq_add_one, List.getElem?_cons_succ]
    rw [hcomp, ih]

theorem filterMap_get_range_drop (l : List (List Char)) :
    ((List.range l.length).drop 1).filterMap (fun i => l[i]?) = l.drop 1 := by
  cases l with
  | nil => rfl
  | cons a t =>
    rw [List.length_cons, List.range_succ_eq_map]
    simp only [List.drop_succ_cons, List.drop_zero, List.filterMap_map]
    have hcomp : ((fun i => (a :: t)[i]?) ∘ Nat.succ) = fun i => t[i]? := by
      funext i
      simp [Function.comp, Nat.succ_eq_add_one, List.getElem?_cons_succ]
    rw [hcomp, filterMap_get_range t]

theorem build_command_spec (j : Job) :
    (Job.build_command j).program = j.command ∧
    (Job.build_command j).args = j.args.drop 1 := by
  unfold Job.build_command
  rw [foldl_command_arg]
  constructor
  · rfl
  · show (Command.new j.command).args ++
        ((List.range j.args.length).drop 1).filterMap (fun i => j.args[i]?) =
        j.args.drop 1
    rw [filterMap_get_range_drop]
    simp [Command.new]

theorem length_le_flatMap (g : GlobService) :
    ∀ l : List (List Char), l.length ≤ (l.flatMap (expandArg g)).length := by
  intro l
  induction l with
  | nil => simp
  | cons a l ih =>
    have h1 := expandArg_length g a
    simp only [List.flatMap_cons, List.length_cons, List.length_append]
    omega

/-! Assembly lemmas from a rendered word sequence up to the parse entry
point. -/

theorem joinWordsT_headFails_ws (t : Tok) (ts : List Tok) (rest : List Char)
    (hgood : GoodTok t) :
    headFails wsChar (joinWordsT (t :: ts) ++ rest) = true := by
  obtain ⟨c, r, hc, hws, _, _, _⟩ := tok_text_head t hgood
  simp [joinWordsT, hc, List.cons_append, headFails, hws]

theorem parse_of_tok_pipeline (t : Tok) (ts : List Tok) (rest : List Char)
    (pl : Pipeline) (hgood : GoodTok t)
    (hp : pipeline (joinWordsT (t :: ts) ++ rest) = some (pl, [])) :
    parse (joinWordsT (t :: ts) ++ rest) = [pl] := by
  obtain ⟨c, r, hc, hws, hh, hcr, hcn⟩ := tok_text_head t hgood
  have hshape : joinWordsT (t :: ts) ++ rest =
      c :: (r ++ (joinTailT ts ++ rest)) := by
    simp [joinWordsT, hc, List.append_assoc]
  rw [hshape] at hp ⊢
  exact parse_single _ pl hp (unused_none_head hws hh)
    (newline_none_head hcr hcn)

theorem sepStop_space_lt (X : List Char) : sepStopB (' ' :: '<' :: X) = true := by
  have h1 : whitespace (' ' :: '<' :: X) = some ((), '<' :: X) :=
    whitespace_cons_space rfl
  have h2 : word ('<' :: X) = none := word_none _ rfl
  simp [sepStopB, h1, h2]

theorem sepStop_space_gt (X : List Char) : sepStopB (' ' :: '>' :: X) = true := by
  have h1 : whitespace (' ' :: '>' :: X) = some ((), '>' :: X) :=
    whitespace_cons_space rfl
  have h2 : word ('>' :: X) = none := word_none _ rfl
  simp [sepStopB, h1, h2]

theorem joinWords_single (tc : Tok) (X : List Char) :
    joinWordsT [tc] ++ X = tc.text ++ X := by
  simp [joinWordsT, joinTailT]

/-! Claim theorems. -/

/-- C1, counterexample: the claim that expand_globs leaves args[0] unchanged
is false.  The parser turns the script a-star into a job whose single word
args[0] is the pattern; expand_globs with a service matching that pattern
replaces args[0] by the two matched paths. -/
theorem C1_counterexample :
    parse ['a', '*'] = [Pipeline.new [jStar] none none] ∧
    jStar.args.head? = some ['a', '*'] ∧
    (Job.expand_globs gCex jStar).args = [['a', 'b'], ['a', 'c']] := by
  refine ⟨by decide, by decide, by decide⟩

/-- C1, amended: Job::expand_globs never alters the command field or the
background flag, but every element of args, args[0] included, is subject to
glob replacement (the new args are the per-argument expansions of all
elements). -/
theorem C1_amended_frame (g : GlobService) (j : Job) :
    (Job.expand_globs g j).command = j.command ∧
    (Job.expand_globs g j).background = j.background ∧
    (Job.expand_globs g j).args = j.args.flatMap (expandArg g) :=
  ⟨expand_globs_command g j, expand_globs_background g j, expand_globs_args g j⟩

/-- C2, counterexample: the invariant command = args[0] does not survive
Job::expand_globs.  The parser produces the job for the script a-star; after
expansion with a service matching the pattern, args[0] is a matched path
while command still holds the pattern. -/
theorem C2_counterexample :
    parse ['a', '*'] = [Pipeline.new [jStar] none none] ∧
    (Job.expand_globs gCex jStar).args.head? ≠
      some (Job.expand_globs gCex jStar).command := by
  constructor
  · decide
  · decide

/-- C2, amended: command = args[0] and non-emptiness of args hold for every
Job built by Job::new, hence for every job the parser produces; expand_globs
preserves non-emptiness of args but may replace args[0] without touching
command, so the equality need not survive expansion. -/
theorem C2_amended_invariant :
    (∀ (args : List (List Char)) (b : Bool) (j : Job),
      Job.new args b = some j → j.args.head? = some j.command ∧ j.args ≠ []) ∧
    (∀ (s : List Char) (j : Job) (r : List Char),
      job s = some (j, r) → j.args.head? = some j.command ∧ j.args ≠ []) ∧
    (∀ (g : GlobService) (j : Job), j.args ≠ [] →
      (Job.expand_globs g j).args ≠ []) :=
  ⟨fun _ _ _ h => Job_new_head h, fun _ _ _ h => job_head h,
   fun g j h => expand_globs_ne_nil g j h⟩

theorem C2_witness :
    jC.args.head? = some jC.command ∧ jC.args ≠ [] :=
  C2_amended_invariant.2.1 ['c'] jC [] (by decide)

/-- C3, counterexample: the program name of the built command is the command
field, not args[0].  After glob expansion of a job whose args[0] was a
pattern, build_command uses the stale command field, which differs from
args[0]. -/
theorem C3_counterexample :
    Job.new [['a', '*'], ['x']] false = some jStarX ∧
    (Job.build_command (Job.expand_globs gCex jStarX)).program ≠
      (Job.expand_globs gCex jStarX).args.headD [] := by
  constructor
  · decide
  · decide

/-- C3, amended: build_command is the pure mapping whose program name is the
command field (equal to args[0] as of construction, but not re-read from
args) and whose argument vector is args[1..] in original order; no validation
of program existence occurs. -/
theorem C3_amended_builder (j : Job) :
    (Job.build_command j).program = j.command ∧
    (Job.build_command j).args = j.args.drop 1 :=
  build_command_spec j

/-- C6: per-argument behaviour of Job::expand_globs.  The new argument vector
concatenates the per-argument expansions, where an argument without glob
metacharacters passes through unchanged, an argument whose glob yields at
least one match is replaced by exactly the match list, and a service error or
empty match list preserves the literal argument. -/
theorem C6_expand_globs_per_argument (g : GlobService) (j : Job) :
    (Job.expand_globs g j).args = j.args.flatMap (expandArg g) ∧
    (∀ arg, hasGlobChar arg = false → expandArg g arg = [arg]) ∧
    (∀ arg ps, hasGlobChar arg = true → g arg = some ps → ps ≠ [] →
      expandArg g arg = ps) ∧
    (∀ arg, hasGlobChar arg = true → (g arg = none ∨ g arg = some []) →
      expandArg g arg = [arg]) := by
  refine ⟨expand_globs_args g j, ?_, ?_, ?_⟩
  · intro arg h
    simp [expandArg, h]
  · intro arg ps h1 h2 h3
    simp [expandArg, h1, h2, h3]
  · intro arg h1 h2
    rcases h2 with h2 | h2 <;> simp [expandArg, h1, h2]

theorem C6_witness :
    (Job.expand_globs gCex jX).args = jX.args.flatMap (expandArg gCex) ∧
    expandArg gCex ['x'] = [['x']] ∧
    expandArg gCex ['a', '*'] = [['a', 'b'], ['a', 'c']] ∧
    expandArg gCex ['b', '?'] = [['b', '?']] :=
  ⟨(C6_expand_globs_per_argument gCex jX).1,
   (C6_expand_globs_per_argument gCex jX).2.1 ['x'] (by decide),
   (C6_expand_globs_per_argument gCex jX).2.2.1
      ['a', '*'] [['a', 'b'], ['a', 'c']] (by decide) (by decide) (by decide),
   (C6_expand_globs_per_argument gCex jX).2.2.2
      ['b', '?'] (by decide) (Or.inl (by decide))⟩

/-- C10: glob expansion never shrinks the argument list; every argument
expands to at least one argument, so the expanded length is at least the
original length. -/
theorem C10_no_shrink (g : GlobService) (j : Job) :
    j.args.length ≤ (Job.expand_globs g j).args.length ∧
    ∀ arg, 1 ≤ (expandArg g arg).length := by
  constructor
  · rw [expand_globs_args]
    exact length_le_flatMap g j.args
  · exact expandArg_length g

/-- C4: the public entry point parse is total and swallows failure: whenever
the pipelines rule fails outright, or matches without consuming the entire
input (rust-peg rejects such a match at the public boundary), parse returns
the empty pipeline list instead of an error. -/
theorem C4_permissive_failure (s : List Char) :
    (pipelinesRule s = none → parse s = []) ∧
    (∀ v (c : Char) r, pipelinesRule s = some (v, c :: r) → parse s = []) := by
  constructor
  · intro h
    simp [parse, pipelines, h]
  · intro v c r h
    simp [parse, pipelines, h]

theorem C4_witness : parse ['|'] = [] :=
  (C4_permissive_failure ['|']).2 [] '|' [] (by decide)

/-- C5: redirection order independence.  For any command word and any two
file words (bare or quoted), the scripts cmd < A > B and cmd > B < A both
parse to the same single pipeline with stdin file A and stdout file B; the
stdin-first alternative of the redirection rule is tried first and the
stdout-first alternative handles the reversed order. -/
theorem C5_redirection_order (tc tA tB : Tok)
    (hc : GoodTok tc) (hA : GoodTok tA) (hB : GoodTok tB) :
    parse (tc.text ++ (' ' :: '<' :: ' ' ::
        (tA.text ++ (' ' :: '>' :: ' ' :: tB.text)))) =
      [Pipeline.new [tokJob tc [] false] (some tA.value) (some tB.value)] ∧
    parse (tc.text ++ (' ' :: '>' :: ' ' ::
        (tB.text ++ (' ' :: '<' :: ' ' :: tA.text)))) =
      [Pipeline.new [tokJob tc [] false] (some tA.value) (some tB.value)] := by
  constructor
  · have hstop := sepStop_space_lt (' ' :: (tA.text ++ (' ' :: '>' :: ' ' :: tB.text)))
    have hjob := job_toks tc []
      (' ' :: '<' :: ' ' :: (tA.text ++ (' ' :: '>' :: ' ' :: tB.text)))
      (' ' :: '<' :: ' ' :: (tA.text ++ (' ' :: '>' :: ' ' :: tB.text)))
      none hc (by simp) hstop rfl (popt_background_ws_lt _)
    have hws := joinWordsT_headFails_ws tc []
      (' ' :: '<' :: ' ' :: (tA.text ++ (' ' :: '>' :: ' ' :: tB.text))) hc
    have hred := redirection_in_first tA tB hA hB
    have hpl := pipeline_redir _ _ _ _ hjob hws rfl
      (@matchChar_cons_neg (fun c => c == '|') '<'
        (' ' :: (tA.text ++ (' ' :: '>' :: ' ' :: tB.text))) (by decide)) hred
    have hp := parse_of_tok_pipeline tc []
      (' ' :: '<' :: ' ' :: (tA.text ++ (' ' :: '>' :: ' ' :: tB.text))) _ hc hpl
    rw [joinWords_single] at hp
    exact hp
  · have hstop := sepStop_space_gt (' ' :: (tB.text ++ (' ' :: '<' :: ' ' :: tA.text)))
    have hjob := job_toks tc []
      (' ' :: '>' :: ' ' :: (tB.text ++ (' ' :: '<' :: ' ' :: tA.text)))
      (' ' :: '>' :: ' ' :: (tB.text ++ (' ' :: '<' :: ' ' :: tA.text)))
      none hc (by simp) hstop rfl (popt_background_ws_gt _)
    have hws := joinWordsT_headFails_ws tc []
      (' ' :: '>' :: ' ' :: (tB.text ++ (' ' :: '<' :: ' ' :: tA.text))) hc
    have hred := redirection_out_first tA tB hA hB
    have hpl := pipeline_redir _ _ _ _ hjob hws rfl
      (@matchChar_cons_neg (fun c => c == '|') '>'
        (' ' :: (tB.text ++ (' ' :: '<' :: ' ' :: tA.text))) (by decide)) hred
    have hp := parse_of_tok_pipeline tc []
      (' ' :: '>' :: ' ' :: (tB.text ++ (' ' :: '<' :: ' ' :: tA.text))) _ hc hpl
    rw [joinWords_single] at hp
    exact hp

theorem C5_witness :
    parse ((['c', 'a', 't'] : List Char) ++ (' ' :: '<' :: ' ' ::
        (['i', 'n'] ++ (' ' :: '>' :: ' ' :: ['o', 'u', 't'])))) =
      [Pipeline.new [tokJob ⟨['c', 'a', 't'], ['c', 'a', 't']⟩ [] false]
        (some ['i', 'n']) (some ['o', 'u', 't'])] ∧
    parse ((['c', 'a', 't'] : List Char) ++ (' ' :: '>' :: ' ' ::
        (['o', 'u', 't'] ++ (' ' :: '<' :: ' ' :: ['i', 'n'])))) =
      [Pipeline.new [tokJob ⟨['c', 'a', 't'], ['c', 'a', 't']⟩ [] false]
        (some ['i', 'n']) (some ['o', 'u', 't'])] :=
  C5_redirection_order ⟨['c', 'a', 't'], ['c', 'a', 't']⟩
    ⟨['i', 'n'], ['i', 'n']⟩ ⟨['o', 'u', 't'], ['o', 'u', 't']⟩
    (by decide) (by decide) (by decide)

/-- C7: quoted-word verbatim content.  A non-empty run without the delimiting
quote character, wrapped in matching double or single quotes, lexes to
exactly that run with only the delimiters stripped; interior special
characters, the opposite quote character and backslashes are literal data. -/
theorem C7_quoted_verbatim (w rest : List Char) (hne : w ≠ []) :
    (w.all (fun c => !(c == '"')) = true →
      word ('"' :: (w ++ ('"' :: rest))) = some (w, rest)) ∧
    (w.all (fun c => !(c == '\'')) = true →
      word ('\'' :: (w ++ ('\'' :: rest))) = some (w, rest)) := by
  constructor
  · intro hall
    have htw : takeWhile1 (fun c => !(c == '"')) (w ++ ('"' :: rest)) =
        some (w, '"' :: rest) :=
      takeWhile1_all_append _ _ _ hne hall (by simp [headFails])
    simp [word, por, double_quoted_word, pbind, ppure, matchChar_dq, htw]
  · intro hall
    have htw : takeWhile1 (fun c => !(c == '\'')) (w ++ ('\'' :: rest)) =
        some (w, '\'' :: rest) :=
      takeWhile1_all_append _ _ _ hne hall (by simp [headFails])
    have hd : double_quoted_word ('\'' :: (w ++ ('\'' :: rest))) = none :=
      double_quoted_word_none (by exact rfl)
    simp [word, por, hd, single_quoted_word, pbind, ppure, matchChar_sq, htw]

theorem C7_witness :
    word ('"' :: ((['a', '#', 'b', ';', '\'', ' ', '\\'] : List Char) ++
        ('"' :: []))) = some (['a', '#', 'b', ';', '\'', ' ', '\\'], []) ∧
    word ('\'' :: ((['a', '#', '"', ';', ' ', '\\'] : List Char) ++
        ('\'' :: []))) = some (['a', '#', '"', ';', ' ', '\\'], []) :=
  ⟨(C7_quoted_verbatim ['a', '#', 'b', ';', '\'', ' ', '\\'] []
      (by decide)).1 (by decide),
   (C7_quoted_verbatim ['a', '#', '"', ';', ' ', '\\'] []
      (by decide)).2 (by decide)⟩

/-- C8: the background marker.  For any non-empty word sequence (bare or
quoted words), the script followed by an ampersand, with or without a
separating space, parses to one job with background true, and the plain
script parses to the same job with background false. -/
theorem C8_background_marker (t : Tok) (ts : List Tok)
    (hgood : GoodTok t) (hgoods : ∀ x ∈ ts, GoodTok x) :
    parse (joinWordsT (t :: ts) ++ ['&']) =
      [Pipeline.new [tokJob t ts true] none none] ∧
    parse (joinWordsT (t :: ts) ++ [' ', '&']) =
      [Pipeline.new [tokJob t ts true] none none] ∧
    parse (joinWordsT (t :: ts)) =
      [Pipeline.new [tokJob t ts false] none none] := by
  refine ⟨?_, ?_, ?_⟩
  · have hjob := job_toks t ts ['&'] [] (some ()) hgood hgoods rfl rfl
      (popt_background_amp [])
    have hpl := pipeline_done _ _ hjob (joinWordsT_headFails_ws t ts ['&'] hgood)
    exact parse_of_tok_pipeline t ts ['&'] _ hgood hpl
  · have hjob := job_toks t ts [' ', '&'] [] (some ()) hgood hgoods rfl rfl
      (popt_background_ws_amp [])
    have hpl := pipeline_done _ _ hjob
      (joinWordsT_headFails_ws t ts [' ', '&'] hgood)
    exact parse_of_tok_pipeline t ts [' ', '&'] _ hgood hpl
  · have hjob := job_toks t ts [] [] none hgood hgoods rfl rfl
      popt_background_nil
    have hpl := pipeline_done _ _ hjob (joinWordsT_headFails_ws t ts [] hgood)
    have hp := parse_of_tok_pipeline t ts [] _ hgood hpl
    rw [List.append_nil] at hp
    exact hp

theorem C8_witness :
    parse (joinWordsT [⟨['e', 'c', 'h', 'o'], ['e', 'c', 'h', 'o']⟩,
        ⟨['a'], ['a']⟩] ++ ['&']) =
      [Pipeline.new [tokJob ⟨['e', 'c', 'h', 'o'], ['e', 'c', 'h', 'o']⟩
        [⟨['a'], ['a']⟩] true] none none] ∧
    parse (joinWordsT [⟨['e', 'c', 'h', 'o'], ['e', 'c', 'h', 'o']⟩,
        ⟨['a'], ['a']⟩] ++ [' ', '&']) =
      [Pipeline.new [tokJob ⟨['e', 'c', 'h', 'o'], ['e', 'c', 'h', 'o']⟩
        [⟨['a'], ['a']⟩] true] none none] ∧
    parse (joinWordsT [⟨['e', 'c', 'h', 'o'], ['e', 'c', 'h', 'o']⟩,
        ⟨['a'], ['a']⟩]) =
      [Pipeline.new [tokJob ⟨['e', 'c', 'h', 'o'], ['e', 'c', 'h', 'o']⟩
        [⟨['a'], ['a']⟩] false] none none] :=
  C8_background_marker ⟨['e', 'c', 'h', 'o'], ['e', 'c', 'h', 'o']⟩
    [⟨['a'], ['a']⟩] (by decide) (by decide)

/-- C9: empty quotes are not an empty word.  The quoted alternatives require
at least one interior character, so two adjacent identical quote characters
are rejected by them and lex as a bare word whose value is the two quote
characters; no word result is ever the empty string. -/
theorem C9_empty_quotes :
    (∀ s v rest, word s = some (v, rest) → v ≠ []) ∧
    double_quoted_word ['"', '"'] = none ∧
    single_quoted_word ['\'', '\''] = none ∧
    word ['"', '"'] = some (['"', '"'], []) ∧
    word ['\'', '\''] = some (['\'', '\''], []) := by
  exact ⟨fun s v rest h => word_some_ne h, by decide, by decide, by decide,
    by decide⟩

theorem C9_witness : (['a'] : List Char) ≠ [] :=
  C9_empty_quotes.1 ['a'] ['a'] [] (by decide)

end Ion
